import Mathlib

set_option autoImplicit false

namespace Indenty

/-! Shallow embedding of the Indenty repository (src/src/lib.rs): the
Prefixable capability, the RoseTree structure, the vec1 crate's nonempty
vector as used by the builder, and the stack-based forest builder
`from_prefixables`, together with the theorems settling the frozen claims. -/

/-- lib.rs lines 10-20: the Prefixable capability of a key type is a single
Bool-valued test `is_prefix_of a b`, read "a is a prefix of b".  A value of
this structure stands for one trait implementation. -/
structure Prefixable (K : Type) : Type where
  is_prefix_of : K → K → Bool

variable {K T : Type} {α : Type}

/-- lib.rs lines 12-19: the derived partial comparison, combining the two
directions of the prefix test. -/
def Prefixable.prefix_ord (P : Prefixable K) (a b : K) : Option Ordering :=
  match P.is_prefix_of a b, P.is_prefix_of b a with
  | true, true => some Ordering.eq
  | true, false => some Ordering.lt
  | false, true => some Ordering.gt
  | false, false => none

/-- Rust `<[T]>::starts_with` (and `str::starts_with` on char sequences):
`startsWith beq l needle` holds when `l` begins with `needle`, comparing
elements with `beq` (the model of the element type's PartialEq). -/
def startsWith (beq : α → α → Bool) : List α → List α → Bool
  | _, [] => true
  | [], _ :: _ => false
  | x :: xs, y :: ys => beq x y && startsWith beq xs ys

/-- lib.rs lines 22-26: `impl<T: PartialEq + PartialOrd> Prefixable for [T]`,
with `is_prefix_of a b = b.starts_with(a)`.  The element type's PartialEq is
modelled by an arbitrary Bool-valued `beq` because Rust's PartialEq carries
no laws (in particular no reflexivity). -/
def slicePrefixable (beq : α → α → Bool) : Prefixable (List α) :=
  ⟨fun a b => startsWith beq b a⟩

/-- lib.rs lines 28-32: `impl Prefixable for &str`, with
`is_prefix_of a b = b.starts_with(a)`.  A `&str` is modelled as its sequence
of characters; `str::starts_with` on valid UTF-8 is exactly character-wise
sequence prefix. -/
def strPrefixable : Prefixable (List Char) :=
  ⟨fun a b => startsWith (fun x y => x == y) b a⟩

/-- lib.rs lines 34-38: `impl<'a, T: Prefixable> Prefixable for &'a T`.  A
reference is modelled by its referent.  The Rust body is
`(*other).is_prefix_of(*self)`: the receiver of the inner call is `*other`
(type `&T`, resolved by-value to `<T as Prefixable>::is_prefix_of`) and the
argument is `*self`, so the wrapper computes the inner test with the two
arguments swapped. -/
def refPrefixable (P : Prefixable K) : Prefixable K :=
  ⟨fun a b => P.is_prefix_of b a⟩

/-- lib.rs lines 50-54: a rose tree node is one value plus an ordered list
of owned children. -/
inductive RoseTree (T : Type) : Type where
  | mk (value : T) (children : List (RoseTree T))

/-- Field accessor for the node value. -/
def RoseTree.value : RoseTree T → T
  | ⟨v, _⟩ => v

/-- Field accessor for the ordered child list. -/
def RoseTree.children : RoseTree T → List (RoseTree T)
  | ⟨_, c⟩ => c

/-- lib.rs lines 95-100: `RoseTree::node`, a leaf. -/
def RoseTree.node (v : T) : RoseTree T :=
  ⟨v, []⟩

/-- lib.rs lines 56-62: the error taxonomy of the builder. -/
inductive IndentationError : Type where
  | emptyIterator
  | incoherentIndent
  | invalidIndent
  | internal
deriving DecidableEq

/-- Model of the vec1 crate's `Vec1`, a vector holding at least one element.
The elements are stored most-recent-last-element first: `top` is the
vector's LAST element in vector order and `rest` lists the earlier elements
from last to first, so the in-order contents are `(top :: rest).reverse`
(see `Vec1.toList`).  This representation makes `push`, `last` and
`try_pop`, the only operations the builder uses, act on the head. -/
structure Vec1 (α : Type) : Type where
  top : α
  rest : List α

/-- `vec1![a]`: the singleton vector. -/
def Vec1.single (a : α) : Vec1 α :=
  ⟨a, []⟩

/-- `Vec1::last`: the final element in vector order. -/
def Vec1.last (v : Vec1 α) : α :=
  v.top

/-- `Vec1::push`: append an element at the end. -/
def Vec1.push (v : Vec1 α) (a : α) : Vec1 α :=
  ⟨a, v.top :: v.rest⟩

/-- `Vec1::last_mut` used at one mutation site: rewrite the final element. -/
def Vec1.modifyLast (f : α → α) (v : Vec1 α) : Vec1 α :=
  ⟨f v.top, v.rest⟩

/-- `Vec1::into_vec`: the contents as a plain list, in vector order. -/
def Vec1.toList (v : Vec1 α) : List α :=
  (v.top :: v.rest).reverse

/-- `Vec1::try_pop`: remove and return the last element, refusing to go
below one element. -/
def Vec1.tryPop : Vec1 α → Option (Vec1 α × α)
  | ⟨_, []⟩ => none
  | ⟨a, b :: bs⟩ => some (⟨b, bs⟩, a)

/-- One frame of the builder stack (lib.rs line 109): a hierarchy key paired
with the nonempty sibling trees built at that key's level. -/
abbrev Frame (K T : Type) : Type :=
  K × Vec1 (RoseTree T)

/-- The builder stack (lib.rs line 109): a nonempty vector of frames; the
`Vec1.last` frame is the innermost nesting level. -/
abbrev Stack (K T : Type) : Type :=
  Vec1 (Frame K T)

/-- The fold of lib.rs lines 157-158 and 170-171: the popped frame's entire
sibling list, in order, is appended to the children of the last sibling of
the frame below it (`stack.last_mut().1.last_mut().children.append`). -/
def foldFrame (below popped : Frame K T) : Frame K T :=
  (below.1, below.2.modifyLast (fun t => ⟨t.value, t.children ++ popped.2.toList⟩) )

/-- The loop body of `RoseTree::prune_down` (lib.rs lines 155-160), popping
every frame above the base and folding each in turn; `f` is the current
innermost frame and the list holds the frames below it, innermost first. -/
def pruneAux (f : Frame K T) : List (Frame K T) → Frame K T
  | [] => f
  | g :: gs => pruneAux (foldFrame g f) gs

/-- lib.rs lines 155-160: `RoseTree::prune_down`, collapsing the stack to
its base frame. -/
def prune_down (st : Stack K T) : Stack K T :=
  ⟨pruneAux st.top st.rest, []⟩

/-- lib.rs lines 162-166: `RoseTree::valid_indent`, scanning every frame of
the stack for a key prefix-order Equal to the target
(`p.prefix_ord(target_indent) == Some(Equal)`). -/
def valid_indent (P : Prefixable K) (target : K) (st : Stack K T) : Bool :=
  (st.top :: st.rest).any (fun fr => P.prefix_ord fr.1 target == some Ordering.eq)

/-- The loop of `RoseTree::prune_down_to` (lib.rs lines 168-173): while the
target key is prefix-order Less than the innermost frame's key, pop and
fold.  When only one frame remains and the guard still holds the Rust code
would panic on `try_pop().unwrap()`; that state is unreachable because the
function is only called after `valid_indent` succeeds, and the model then
returns the singleton stack. -/
def pruneToAux (P : Prefixable K) (target : K) (f : Frame K T) :
    List (Frame K T) → Stack K T
  | [] => ⟨f, []⟩
  | g :: gs =>
    if P.prefix_ord target f.1 = some Ordering.lt then
      pruneToAux P target (foldFrame g f) gs
    else
      ⟨f, g :: gs⟩

/-- lib.rs lines 168-173: `RoseTree::prune_down_to`. -/
def prune_down_to (P : Prefixable K) (target : K) (st : Stack K T) : Stack K T :=
  pruneToAux P target st.top st.rest

/-- One iteration of the `for` loop of `RoseTree::from_prefixables`
(lib.rs lines 118-144): compare the incoming key with the innermost frame's
key and extend the stack, or fail. -/
def fromStep (P : Prefixable K) (st : Stack K T) (p : K × T) :
    Except IndentationError (Stack K T) :=
  match P.prefix_ord p.1 st.last.1 with
  | some Ordering.eq =>
    Except.ok (st.modifyLast (fun fr => (fr.1, fr.2.push (RoseTree.node p.2))))
  | some Ordering.gt =>
    Except.ok (st.push (p.1, Vec1.single (RoseTree.node p.2)))
  | some Ordering.lt =>
    if valid_indent P p.1 st then
      Except.ok
        ((prune_down_to P p.1 st).modifyLast
          (fun fr => (fr.1, fr.2.push (RoseTree.node p.2))))
    else
      Except.error IndentationError.invalidIndent
  | none => Except.error IndentationError.incoherentIndent

/-- lib.rs lines 109-116: the initial stack built from the first pair, one
frame holding the base key and a single leaf. -/
def initStack (k : K) (v : T) : Stack K T :=
  Vec1.single (k, Vec1.single (RoseTree.node v))

/-- lib.rs lines 148-152: the final extraction
`stack.into_vec().pop().map(|(_, t)| t.into_vec()).ok_or(Internal)` —
`Vec::pop` takes the last element of the in-order vector, and a `None`
is mapped to the defensive `Internal` error. -/
def finalize (st : Stack K T) : Except IndentationError (List (RoseTree T)) :=
  match (Vec1.toList st).getLast? with
  | some fr => Except.ok fr.2.toList
  | none => Except.error IndentationError.internal

/-- The `for` loop of lib.rs lines 118-144 over the remaining pairs, with
the early `return Err` on the first failing step. -/
def processAll (P : Prefixable K) : Stack K T → List (K × T) →
    Except IndentationError (Stack K T)
  | st, [] => Except.ok st
  | st, p :: rest =>
    match fromStep P st p with
    | Except.error e => Except.error e
    | Except.ok st₂ => processAll P st₂ rest

/-- lib.rs lines 106-153: `RoseTree::from_prefixables`, the whole builder:
empty input succeeds with the empty forest; otherwise initialize from the
first pair, run the loop, prune down, and extract the base frame's
siblings. -/
def from_prefixables (P : Prefixable K) :
    List (K × T) → Except IndentationError (List (RoseTree T))
  | [] => Except.ok []
  | (k, v) :: rest =>
    match processAll P (initStack k v) rest with
    | Except.error e => Except.error e
    | Except.ok st => finalize (prune_down st)

mutual

/-- Depth-first preorder of one tree: the node's value, then its children's
preorders left to right. -/
def RoseTree.preorder : RoseTree T → List T
  | ⟨v, cs⟩ => v :: RoseTree.preorderList cs

/-- Depth-first preorder of a forest, roots left to right. -/
def RoseTree.preorderList : List (RoseTree T) → List T
  | [] => []
  | t :: ts => t.preorder ++ RoseTree.preorderList ts

end

mutual

/-- Number of nodes of one tree. -/
def RoseTree.size : RoseTree T → Nat
  | ⟨_, cs⟩ => 1 + RoseTree.sizeList cs

/-- Total number of nodes of a forest. -/
def RoseTree.sizeList : List (RoseTree T) → Nat
  | [] => 0
  | t :: ts => t.size + RoseTree.sizeList ts

end

/-- All values held in a builder stack, frames outermost to innermost, each
frame contributing its siblings' preorders in order. -/
def flattenStack (st : Stack K T) : List T :=
  ((Vec1.toList st).map (fun fr => RoseTree.preorderList (Vec1.toList fr.2))).flatten

/-- A linear chain of values: the first value is the root, each later value
is the sole child of the previous one, and the deepest is a leaf. -/
def chainRT (v : T) : List T → RoseTree T
  | [] => RoseTree.node v
  | w :: ws => ⟨v, [chainRT w ws]⟩

/-- Collapse of a tower of trees: each tree in the list is hung, in turn, as
a new last child of the previous tree. -/
def collapse1 (t : RoseTree T) : List (RoseTree T) → RoseTree T
  | [] => t
  | u :: us => ⟨t.value, t.children ++ [collapse1 u us]⟩

/-- Iterated `Vec1.push` of frames onto a stack. -/
def pushAll (st : Stack K T) (fs : List (Frame K T)) : Stack K T :=
  fs.foldl Vec1.push st

/-- Models a Rust element-level PartialEq that is not reflexive, as f64's is
at NaN; Rust's PartialEq contract does not require reflexivity, so this is a
legal instantiation of the bound `T: PartialEq + PartialOrd`. -/
def nanEq : Unit → Unit → Bool :=
  fun _ _ => false

/-! ### Basic lemmas about the embedded operations -/

theorem Vec1.toList_ne_nil (v : Vec1 α) : v.toList ≠ [] := by
  obtain ⟨t, r⟩ := v
  simp [Vec1.toList]

theorem Vec1.toList_push (v : Vec1 α) (a : α) :
    (v.push a).toList = v.toList ++ [a] := by
  obtain ⟨t, r⟩ := v
  simp [Vec1.push, Vec1.toList]

theorem preorderList_append (xs ys : List (RoseTree T)) :
    RoseTree.preorderList (xs ++ ys)
      = RoseTree.preorderList xs ++ RoseTree.preorderList ys := by
  induction xs with
  | nil => simp [RoseTree.preorderList]
  | cons t ts ih => simp [RoseTree.preorderList, ih]

mutual

theorem preorder_length (t : RoseTree T) :
    (RoseTree.preorder t).length = t.size :=
  match t with
  | ⟨v, cs⟩ => by
    simp [RoseTree.preorder, RoseTree.size, preorderList_length cs, Nat.add_comm]

theorem preorderList_length (ts : List (RoseTree T)) :
    (RoseTree.preorderList ts).length = RoseTree.sizeList ts :=
  match ts with
  | [] => by simp [RoseTree.preorderList, RoseTree.sizeList]
  | t :: ts => by
    simp [RoseTree.preorderList, RoseTree.sizeList, preorder_length t,
      preorderList_length ts]

end

/-! ### The flattened stack contents and their preservation -/

theorem flattenStack_foldFrame (f g : Frame K T) (gs : List (Frame K T)) :
    flattenStack ⟨foldFrame g f, gs⟩ = flattenStack ⟨f, g :: gs⟩ := by
  obtain ⟨k, s⟩ := g
  obtain ⟨⟨v, cs⟩, r⟩ := s
  simp [flattenStack, foldFrame, Vec1.toList, Vec1.modifyLast, RoseTree.value,
    RoseTree.children, RoseTree.preorder, RoseTree.preorderList,
    preorderList_append, List.append_assoc]

theorem flattenStack_pruneAux :
    ∀ (gs : List (Frame K T)) (f : Frame K T),
      flattenStack ⟨pruneAux f gs, []⟩ = flattenStack ⟨f, gs⟩
  | [], f => rfl
  | g :: gs, f => by
    rw [show pruneAux f (g :: gs) = pruneAux (foldFrame g f) gs from rfl,
      flattenStack_pruneAux gs (foldFrame g f), flattenStack_foldFrame]

theorem flattenStack_pruneToAux (P : Prefixable K) (k : K) :
    ∀ (gs : List (Frame K T)) (f : Frame K T),
      flattenStack (pruneToAux P k f gs) = flattenStack ⟨f, gs⟩
  | [], f => rfl
  | g :: gs, f => by
    by_cases h : P.prefix_ord k f.1 = some Ordering.lt
    · rw [show pruneToAux P k f (g :: gs) = pruneToAux P k (foldFrame g f) gs from by
        simp [pruneToAux, h]]
      rw [flattenStack_pruneToAux P k gs (foldFrame g f), flattenStack_foldFrame]
    · simp [pruneToAux, h]

theorem flattenStack_modifyPush (st : Stack K T) (t : RoseTree T) :
    flattenStack (st.modifyLast (fun fr => (fr.1, fr.2.push t)))
      = flattenStack st ++ RoseTree.preorder t := by
  obtain ⟨⟨k, s⟩, r⟩ := st
  simp [flattenStack, Vec1.modifyLast, Vec1.toList, Vec1.push,
    preorderList_append, RoseTree.preorderList, List.append_assoc]

theorem flattenStack_push (st : Stack K T) (fr : Frame K T) :
    flattenStack (st.push fr)
      = flattenStack st ++ RoseTree.preorderList fr.2.toList := by
  obtain ⟨f, r⟩ := st
  simp [flattenStack, Vec1.push, Vec1.toList, List.append_assoc]

theorem flattenStack_fromStep (P : Prefixable K) (st st₂ : Stack K T) (p : K × T)
    (h : fromStep P st p = Except.ok st₂) :
    flattenStack st₂ = flattenStack st ++ [p.2] := by
  unfold fromStep at h
  cases ho : P.prefix_ord p.1 st.last.1 with
  | none => rw [ho] at h; exact Except.noConfusion h
  | some o =>
    cases o with
    | lt =>
      rw [ho] at h
      cases hv : valid_indent P p.1 st with
      | false => simp [hv] at h
      | true =>
        simp only [hv, if_true] at h
        injection h with h2
        subst h2
        rw [flattenStack_modifyPush]
        have hp : flattenStack (prune_down_to P p.1 st) = flattenStack st := by
          obtain ⟨f, r⟩ := st
          exact flattenStack_pruneToAux P p.1 r f
        rw [hp]
        simp [RoseTree.node, RoseTree.preorder, RoseTree.preorderList]
    | eq =>
      rw [ho] at h
      injection h with h2
      subst h2
      rw [flattenStack_modifyPush]
      simp [RoseTree.node, RoseTree.preorder, RoseTree.preorderList]
    | gt =>
      rw [ho] at h
      injection h with h2
      subst h2
      rw [flattenStack_push]
      simp [Vec1.single, Vec1.toList, RoseTree.node, RoseTree.preorder,
        RoseTree.preorderList]

/-! ### Lemmas about the processing loop and finalization -/

theorem processAll_ok_flatten (P : Prefixable K) :
    ∀ (l : List (K × T)) (st st₂ : Stack K T),
      processAll P st l = Except.ok st₂ →
      flattenStack st₂ = flattenStack st ++ l.map Prod.snd
  | [], st, st₂, h => by
    injection h with h2
    subst h2
    simp
  | p :: rest, st, st₂, h => by
    simp only [processAll] at h
    cases hs : fromStep P st p with
    | error e => rw [hs] at h; exact Except.noConfusion h
    | ok st₁ =>
      rw [hs] at h
      rw [processAll_ok_flatten P rest st₁ st₂ h, flattenStack_fromStep P st st₁ p hs]
      simp

theorem processAll_error (P : Prefixable K) :
    ∀ (l : List (K × T)) (st : Stack K T) (e : IndentationError),
      processAll P st l = Except.error e →
      ∃ l₁ p l₂ st₂, l = l₁ ++ p :: l₂ ∧ processAll P st l₁ = Except.ok st₂ ∧
        fromStep P st₂ p = Except.error e
  | [], st, e, h => Except.noConfusion h
  | p :: rest, st, e, h => by
    simp only [processAll] at h
    cases hs : fromStep P st p with
    | error e2 =>
      rw [hs] at h
      injection h with h2
      subst h2
      exact ⟨[], p, rest, st, rfl, rfl, hs⟩
    | ok st₁ =>
      rw [hs] at h
      obtain ⟨l₁, q, l₂, st₂, rfl, hok, herr⟩ := processAll_error P rest st₁ e h
      refine ⟨p :: l₁, q, l₂, st₂, rfl, ?_, herr⟩
      simp only [processAll]
      rw [hs]
      exact hok

theorem finalize_prune_down (st : Stack K T) :
    finalize (prune_down st)
      = Except.ok (Vec1.toList (pruneAux st.top st.rest).2) := by
  simp [finalize, prune_down, Vec1.toList, List.getLast?]

theorem flattenStack_single (f : Frame K T) :
    flattenStack ⟨f, []⟩ = RoseTree.preorderList f.2.toList := by
  simp [flattenStack, Vec1.toList]

theorem flattenStack_initStack (k : K) (v : T) :
    flattenStack (initStack k v) = [v] := by
  simp [initStack, Vec1.single, flattenStack, Vec1.toList, RoseTree.node,
    RoseTree.preorder, RoseTree.preorderList]

/-! ### Characterization of the step errors -/

theorem fromStep_invalid_iff (P : Prefixable K) (st : Stack K T) (k : K) (v : T) :
    fromStep P st (k, v) = Except.error IndentationError.invalidIndent ↔
      (P.prefix_ord k st.last.1 = some Ordering.lt ∧ valid_indent P k st = false) := by
  unfold fromStep
  cases ho : P.prefix_ord k st.last.1 with
  | none => simp [ho]
  | some o =>
    cases o with
    | lt =>
      cases hv : valid_indent P k st with
      | false => simp [ho, hv]
      | true => simp [ho, hv]
    | eq => simp [ho]
    | gt => simp [ho]

theorem fromStep_incoherent_iff (P : Prefixable K) (st : Stack K T) (k : K) (v : T) :
    fromStep P st (k, v) = Except.error IndentationError.incoherentIndent ↔
      P.prefix_ord k st.last.1 = none := by
  unfold fromStep
  cases ho : P.prefix_ord k st.last.1 with
  | none => simp [ho]
  | some o =>
    cases o with
    | lt =>
      cases hv : valid_indent P k st with
      | false => simp [ho, hv]
      | true => simp [ho, hv]
    | eq => simp [ho]
    | gt => simp [ho]

theorem fromStep_error_nature (P : Prefixable K) (st : Stack K T) (p : K × T)
    (e : IndentationError) (h : fromStep P st p = Except.error e) :
    e = IndentationError.invalidIndent ∨ e = IndentationError.incoherentIndent := by
  unfold fromStep at h
  cases ho : P.prefix_ord p.1 st.last.1 with
  | none =>
    rw [ho] at h
    injection h with h2
    exact Or.inr h2.symm
  | some o =>
    cases o with
    | lt =>
      rw [ho] at h
      cases hv : valid_indent P p.1 st with
      | false =>
        simp only [hv, Bool.false_eq_true, if_false] at h
        injection h with h2
        exact Or.inl h2.symm
      | true => simp [hv] at h
    | eq => rw [ho] at h; exact Except.noConfusion h
    | gt => rw [ho] at h; exact Except.noConfusion h

/-! ### Strictly increasing chains build towers, and towers prune to chains -/

theorem pushAll_cons (st : Stack K T) (f : Frame K T) (fs : List (Frame K T)) :
    pushAll st (f :: fs) = pushAll (st.push f) fs := rfl

theorem processAll_tower (P : Prefixable K) :
    ∀ (l : List (K × T)) (st : Stack K T),
      List.Chain' (fun a b => P.prefix_ord b a = some Ordering.gt)
        (st.last.1 :: l.map Prod.fst) →
      processAll P st l =
        Except.ok (pushAll st (l.map (fun p => (p.1, Vec1.single (RoseTree.node p.2)))))
  | [], _, _ => rfl
  | (k, v) :: rest, st, hch => by
    simp only [List.map_cons] at hch
    have h2 := List.chain'_cons.mp hch
    have hstep : fromStep P st (k, v)
        = Except.ok (st.push (k, Vec1.single (RoseTree.node v))) := by
      unfold fromStep
      rw [show P.prefix_ord (k, v).1 st.last.1 = some Ordering.gt from h2.1]
    have hrec := processAll_tower P rest (st.push (k, Vec1.single (RoseTree.node v))) h2.2
    simp only [processAll, hstep, hrec, List.map_cons, pushAll_cons]

theorem prune_down_push_push (st : Stack K T) (f₁ f₂ : Frame K T) :
    prune_down ((st.push f₁).push f₂) = prune_down (st.push (foldFrame f₁ f₂)) := rfl

theorem foldFrame_single (k₁ k₂ : K) (t₁ t₂ : RoseTree T) :
    foldFrame (k₁, Vec1.single t₁) (k₂, Vec1.single t₂)
      = (k₁, Vec1.single ⟨t₁.value, t₁.children ++ [t₂]⟩) := rfl

theorem prune_pushAll_tower :
    ∀ (l : List (K × RoseTree T)) (q : K × RoseTree T) (st : Stack K T),
      prune_down (pushAll st ((q :: l).map (fun p => (p.1, Vec1.single p.2))))
        = prune_down (st.push (q.1, Vec1.single (collapse1 q.2 (l.map Prod.snd))))
  | [], _, _ => rfl
  | r :: l, q, st => by
    have ih := prune_pushAll_tower l r (st.push (q.1, Vec1.single q.2))
    simp only [List.map_cons, pushAll_cons] at ih ⊢
    rw [ih, prune_down_push_push, foldFrame_single]
    rfl

theorem collapse1_node_chain :
    ∀ (ws : List T) (w : T),
      collapse1 (RoseTree.node w) (ws.map RoseTree.node) = chainRT w ws
  | [], _ => rfl
  | x :: ws, w => by
    show RoseTree.mk w ([] ++ [collapse1 (RoseTree.node x) (ws.map RoseTree.node)])
      = RoseTree.mk w [chainRT x ws]
    rw [collapse1_node_chain ws x]
    rfl

/-- Element-wise reflexivity of the modelled `starts_with` on the diagonal. -/
theorem startsWith_self (beq : α → α → Bool) :
    ∀ (a : List α), (∀ x ∈ a, beq x x = true) → startsWith beq a a = true
  | [], _ => rfl
  | x :: xs, h => by
    have h1 : beq x x = true := h x (List.mem_cons_self x xs)
    have h2 := startsWith_self beq xs (fun y hy => h y (List.mem_cons_of_mem x hy))
    simp [startsWith, h1, h2]

/-! ### The claims -/

/-- C1: evaluation of the reference-wrapper implementation at the failing
input.  With the slice implementation over `Nat` (element equality `==`) as
the inner type, the inner `is_prefix_of [1] [1, 2]` is true and the inner
`prefix_ord` orders the pair Less, but the wrapper of lib.rs lines 34-38
applied to the same dereferenced values returns false and orders the pair
Greater: its body `(*other).is_prefix_of(*self)` calls the inner test with
the two arguments swapped instead of delegating, as the final conjunct
states in general. -/
theorem ref_wrapper_swaps_arguments :
    (slicePrefixable (fun a b : Nat => a == b)).is_prefix_of [1] [1, 2] = true
    ∧ (refPrefixable (slicePrefixable (fun a b : Nat => a == b))).is_prefix_of
        [1] [1, 2] = false
    ∧ (slicePrefixable (fun a b : Nat => a == b)).prefix_ord [1] [1, 2]
        = some Ordering.lt
    ∧ (refPrefixable (slicePrefixable (fun a b : Nat => a == b))).prefix_ord
        [1] [1, 2] = some Ordering.gt
    ∧ ∀ (A : Type) (P : Prefixable A) (a b : A),
        (refPrefixable P).is_prefix_of a b = P.is_prefix_of b a :=
  ⟨rfl, rfl, rfl, rfl, fun _ _ _ _ => rfl⟩

/-- C2: the six-pair string-keyed literal input yields exactly three roots:
a root 1 whose only child is 2, a root 3 with children 4 then 5 in that
order, and a childless root 6. -/
theorem six_pair_input_three_roots :
    from_prefixables strPrefixable
      [([' '], (1 : Nat)), ([' ', ' '], 2), ([' '], 3), ([' ', ' '], 4),
       ([' ', ' '], 5), ([' '], 6)]
      = Except.ok [⟨1, [RoseTree.node 2]⟩,
          ⟨3, [RoseTree.node 4, RoseTree.node 5]⟩, RoseTree.node 6] := rfl

/-- C3: a step returns InvalidIndent exactly when the incoming key is
prefix-order Less than the innermost frame's key and no frame anywhere on
the stack has a key prefix-order Equal to it (first conjunct, an iff, so
InvalidIndent arises in no other step situation); every InvalidIndent
result of the whole builder arises from such a step (second conjunct); and
the two-pair input with keys " " then "" fails with InvalidIndent (third
conjunct). -/
theorem invalid_indent_characterization (P : Prefixable K) :
    (∀ (st : Stack K T) (k : K) (v : T),
      fromStep P st (k, v) = Except.error IndentationError.invalidIndent ↔
        (P.prefix_ord k st.last.1 = some Ordering.lt
          ∧ valid_indent P k st = false))
    ∧ (∀ (l : List (K × T)),
        from_prefixables P l = Except.error IndentationError.invalidIndent →
        ∃ k₀ v₀ l₁ k v l₂ st, l = (k₀, v₀) :: (l₁ ++ (k, v) :: l₂)
          ∧ processAll P (initStack k₀ v₀) l₁ = Except.ok st
          ∧ P.prefix_ord k st.last.1 = some Ordering.lt
          ∧ valid_indent P k st = false)
    ∧ from_prefixables strPrefixable [([' '], (1 : Nat)), ([], 2)]
        = Except.error IndentationError.invalidIndent := by
  refine ⟨fromStep_invalid_iff P, ?_, rfl⟩
  intro l h
  cases l with
  | nil => exact Except.noConfusion h
  | cons hd tl =>
    obtain ⟨k₀, v₀⟩ := hd
    simp only [from_prefixables] at h
    cases hp : processAll P (initStack k₀ v₀) tl with
    | ok st =>
      simp only [hp] at h
      rw [finalize_prune_down] at h
      exact Except.noConfusion h
    | error e =>
      simp only [hp] at h
      injection h with h2
      subst h2
      obtain ⟨l₁, p, l₂, st, rfl, hok, herr⟩ := processAll_error P tl _ _ hp
      obtain ⟨k, v⟩ := p
      have hc := (fromStep_invalid_iff P st k v).mp herr
      exact ⟨k₀, v₀, l₁, k, v, l₂, st, rfl, hok, hc.1, hc.2⟩

/-- Witness for C3: the characterization applied at a concrete stack and
pair — dedenting from base key " " to the non-matching key "". -/
theorem invalid_indent_characterization_witness :
    fromStep strPrefixable (initStack [' '] (1 : Nat)) ([], 2)
      = Except.error IndentationError.invalidIndent :=
  ((invalid_indent_characterization strPrefixable).1
    (initStack [' '] 1) [] 2).mpr ⟨rfl, rfl⟩

/-- C4: a step returns IncoherentIndent exactly when the incoming key is
mutually incomparable with the innermost frame's key (first conjunct, an
iff); every IncoherentIndent result of the whole builder arises from such
a step (second conjunct); and the three-pair input with keys "", " ",
"\t" fails with IncoherentIndent (third conjunct). -/
theorem incoherent_indent_characterization (P : Prefixable K) :
    (∀ (st : Stack K T) (k : K) (v : T),
      fromStep P st (k, v) = Except.error IndentationError.incoherentIndent ↔
        P.prefix_ord k st.last.1 = none)
    ∧ (∀ (l : List (K × T)),
        from_prefixables P l = Except.error IndentationError.incoherentIndent →
        ∃ k₀ v₀ l₁ k v l₂ st, l = (k₀, v₀) :: (l₁ ++ (k, v) :: l₂)
          ∧ processAll P (initStack k₀ v₀) l₁ = Except.ok st
          ∧ P.prefix_ord k st.last.1 = none)
    ∧ from_prefixables strPrefixable [([], (1 : Nat)), ([' '], 2), (['\t'], 3)]
        = Except.error IndentationError.incoherentIndent := by
  refine ⟨fromStep_incoherent_iff P, ?_, rfl⟩
  intro l h
  cases l with
  | nil => exact Except.noConfusion h
  | cons hd tl =>
    obtain ⟨k₀, v₀⟩ := hd
    simp only [from_prefixables] at h
    cases hp : processAll P (initStack k₀ v₀) tl with
    | ok st =>
      simp only [hp] at h
      rw [finalize_prune_down] at h
      exact Except.noConfusion h
    | error e =>
      simp only [hp] at h
      injection h with h2
      subst h2
      obtain ⟨l₁, p, l₂, st, rfl, hok, herr⟩ := processAll_error P tl _ _ hp
      obtain ⟨k, v⟩ := p
      have hc := (fromStep_incoherent_iff P st k v).mp herr
      exact ⟨k₀, v₀, l₁, k, v, l₂, st, rfl, hok, hc⟩

/-- Witness for C4: the characterization applied at a concrete stack and
pair — a tab key against a space key. -/
theorem incoherent_indent_characterization_witness :
    fromStep strPrefixable (initStack [' '] (1 : Nat)) (['\t'], 2)
      = Except.error IndentationError.incoherentIndent :=
  ((incoherent_indent_characterization strPrefixable).1
    (initStack [' '] 1) ['\t'] 2).mpr rfl

/-- C5: an input of N ≥ 1 pairs whose keys form a strictly increasing
prefix chain (each key prefix-order Greater than its predecessor) succeeds
with a single root carrying the first value, under which the remaining
values hang as a linear chain in input order — each node of `chainRT` has
exactly one child except the deepest, a leaf. -/
theorem chain_input_linear_chain (P : Prefixable K) (k₀ : K) (v₀ : T)
    (rest : List (K × T))
    (hch : List.Chain' (fun a b => P.prefix_ord b a = some Ordering.gt)
      (k₀ :: rest.map Prod.fst)) :
    from_prefixables P ((k₀, v₀) :: rest)
      = Except.ok [chainRT v₀ (rest.map Prod.snd)] := by
  have hproc := processAll_tower P rest (initStack k₀ v₀) hch
  simp only [from_prefixables, hproc]
  cases rest with
  | nil => rfl
  | cons r rs =>
    rw [show (r :: rs).map (fun p => (p.1, Vec1.single (RoseTree.node p.2)))
        = ((r.1, RoseTree.node r.2) :: rs.map (fun p => (p.1, RoseTree.node p.2))).map
            (fun p => (p.1, Vec1.single p.2)) from by simp]
    rw [prune_pushAll_tower]
    rw [show (rs.map (fun p => (p.1, RoseTree.node p.2))).map Prod.snd
        = (rs.map Prod.snd).map RoseTree.node from by simp]
    rw [collapse1_node_chain]
    rfl

/-- Witness for C5: a three-pair strictly increasing chain "", " ", "  "
yields the single root 1 with the linear chain 2, 3 below it. -/
theorem chain_input_linear_chain_witness :
    from_prefixables strPrefixable [([], (1 : Nat)), ([' '], 2), ([' ', ' '], 3)]
      = Except.ok [chainRT 1 [2, 3]] :=
  chain_input_linear_chain strPrefixable [] 1 [([' '], 2), ([' ', ' '], 3)]
    (List.chain'_cons.mpr ⟨rfl, List.chain'_cons.mpr ⟨rfl, List.chain'_singleton _⟩⟩)

/-- C6: the empty input returns Ok with the empty forest, and no input
whatsoever makes the builder return EmptyIterator — that variant is
unreachable through `from_prefixables`. -/
theorem empty_input_no_empty_iterator (P : Prefixable K) :
    from_prefixables (T := T) P [] = Except.ok []
    ∧ ∀ (l : List (K × T)),
        from_prefixables P l ≠ Except.error IndentationError.emptyIterator := by
  refine ⟨rfl, ?_⟩
  intro l h
  cases l with
  | nil => exact Except.noConfusion h
  | cons hd tl =>
    obtain ⟨k₀, v₀⟩ := hd
    simp only [from_prefixables] at h
    cases hp : processAll P (initStack k₀ v₀) tl with
    | ok st =>
      simp only [hp] at h
      rw [finalize_prune_down] at h
      exact Except.noConfusion h
    | error e =>
      simp only [hp] at h
      injection h with h2
      subst h2
      obtain ⟨l₁, p, l₂, st₂, _, _, herr⟩ := processAll_error P tl _ _ hp
      rcases fromStep_error_nature P st₂ p _ herr with h3 | h3 <;>
        exact IndentationError.noConfusion h3

/-- Witness for C6: the conjuncts applied at concrete inputs. -/
theorem empty_input_no_empty_iterator_witness :
    from_prefixables strPrefixable ([] : List (List Char × Nat)) = Except.ok []
    ∧ from_prefixables strPrefixable [([], (1 : Nat))]
        ≠ Except.error IndentationError.emptyIterator :=
  ⟨(empty_input_no_empty_iterator strPrefixable).1,
   (empty_input_no_empty_iterator strPrefixable).2 [([], 1)]⟩

/-- C7: whenever the builder succeeds, the depth-first preorder of the
returned forest (roots left to right, each node before its children) is
exactly the input's value sequence, so in particular the forest's total
node count equals the number of input pairs. -/
theorem success_preorder_is_input (P : Prefixable K) (l : List (K × T))
    (forest : List (RoseTree T))
    (h : from_prefixables P l = Except.ok forest) :
    RoseTree.preorderList forest = l.map Prod.snd
    ∧ RoseTree.sizeList forest = l.length := by
  have hpre : RoseTree.preorderList forest = l.map Prod.snd := by
    cases l with
    | nil =>
      injection h with h2
      subst h2
      rfl
    | cons hd tl =>
      obtain ⟨k₀, v₀⟩ := hd
      simp only [from_prefixables] at h
      cases hp : processAll P (initStack k₀ v₀) tl with
      | error e => simp only [hp] at h; exact Except.noConfusion h
      | ok st =>
        simp only [hp] at h
        rw [finalize_prune_down] at h
        injection h with h2
        subst h2
        have hf := processAll_ok_flatten P tl (initStack k₀ v₀) st hp
        rw [flattenStack_initStack] at hf
        have hfl := flattenStack_pruneAux st.rest st.top
        rw [flattenStack_single] at hfl
        rw [hfl]
        exact hf
  refine ⟨hpre, ?_⟩
  have hlen := preorderList_length forest
  rw [hpre] at hlen
  simpa using hlen.symm

/-- Witness for C7: the theorem applied to a concrete successful run. -/
theorem success_preorder_is_input_witness :
    RoseTree.preorderList [RoseTree.node (5 : Nat)] = [5]
    ∧ RoseTree.sizeList [RoseTree.node (5 : Nat)] = 1 :=
  success_preorder_is_input strPrefixable [([], 5)] [RoseTree.node 5] rfl

/-- C8: the builder never returns the defensive Internal error: on every
input the result is Ok or one of the two user-input errors (first
conjunct), because the final extraction of the base frame out of the
pruned-down stack always succeeds (second conjunct) — the nonempty vector
keeps at least the base frame, so `into_vec().pop()` cannot return None,
and the folding steps' destination frames always exist by the same
nonemptiness. -/
theorem internal_unreachable (P : Prefixable K) :
    (∀ (l : List (K × T)),
      from_prefixables P l ≠ Except.error IndentationError.internal)
    ∧ ∀ (st : Stack K T), ∃ forest, finalize (prune_down st) = Except.ok forest := by
  constructor
  · intro l h
    cases l with
    | nil => exact Except.noConfusion h
    | cons hd tl =>
      obtain ⟨k₀, v₀⟩ := hd
      simp only [from_prefixables] at h
      cases hp : processAll P (initStack k₀ v₀) tl with
      | ok st =>
        simp only [hp] at h
        rw [finalize_prune_down] at h
        exact Except.noConfusion h
      | error e =>
        simp only [hp] at h
        injection h with h2
        subst h2
        obtain ⟨l₁, p, l₂, st₂, _, _, herr⟩ := processAll_error P tl _ _ hp
        rcases fromStep_error_nature P st₂ p _ herr with h3 | h3 <;>
          exact IndentationError.noConfusion h3
  · intro st
    exact ⟨_, finalize_prune_down st⟩

/-- Witness for C8: the first conjunct at a concrete erroring input and the
second at a concrete two-frame stack. -/
theorem internal_unreachable_witness :
    from_prefixables strPrefixable [([' '], (1 : Nat)), ([], 2)]
      ≠ Except.error IndentationError.internal
    ∧ ∃ forest, finalize (prune_down
        ((initStack [' '] (1 : Nat)).push ([' ', ' '], Vec1.single (RoseTree.node 2))))
        = Except.ok forest :=
  ⟨(internal_unreachable strPrefixable).1 [([' '], 1), ([], 2)],
   (internal_unreachable strPrefixable).2 _⟩

/-- C9: every value of the builder's stack type — hence every stack that
occurs at any point of a run: the initial stack, the stack after each
successful step, every intermediate stack of the two pruning loops
(`pruneAux` and `pruneToAux` map stacks to stacks) and the finalized
stack — contains at least one frame, and every frame on it holds at least
one sibling tree.  The Vec1 structure enforces this by construction,
exactly as the vec1 crate does in the Rust code. -/
theorem stack_frames_nonempty (st : Stack K T) :
    0 < (Vec1.toList st).length
    ∧ ∀ fr, fr ∈ Vec1.toList st → 0 < (Vec1.toList fr.2).length :=
  ⟨List.length_pos.mpr (Vec1.toList_ne_nil st),
   fun fr _ => List.length_pos.mpr (Vec1.toList_ne_nil fr.2)⟩

/-- Witness for C9: the invariant at the concrete initial stack, and at its
sole frame. -/
theorem stack_frames_nonempty_witness :
    0 < (Vec1.toList (initStack ([' '] : List Char) (1 : Nat))).length
    ∧ 0 < (Vec1.toList ((initStack ([' '] : List Char) (1 : Nat)).top.2)).length :=
  ⟨(stack_frames_nonempty (initStack [' '] 1)).1,
   (stack_frames_nonempty (initStack [' '] 1)).2 _
     (by simp [initStack, Vec1.single, Vec1.toList])⟩

/-- C10 counterexample: the slice implementation instantiated at a legal
but non-reflexive element PartialEq (`nanEq`, the shape of f64's equality
at NaN — Rust's `PartialEq + PartialOrd` bounds do not promise
reflexivity) is not reflexive: a one-element key is not a prefix of
itself. -/
theorem slice_reflexivity_fails_for_lawless_eq :
    (slicePrefixable nanEq).is_prefix_of [()] [()] = false := rfl

/-- C10 (amended): the &str implementation is reflexive unconditionally;
the slice implementation is reflexive on every key whose elements are each
equal to themselves under the element PartialEq (which holds for every
element type with reflexive equality, but not for every PartialEq); and
the reference wrapper is reflexive whenever the inner implementation
is. -/
theorem provided_impls_reflexive :
    (∀ s : List Char, strPrefixable.is_prefix_of s s = true)
    ∧ (∀ (A : Type) (beq : A → A → Bool) (a : List A),
        (∀ x ∈ a, beq x x = true) →
        (slicePrefixable beq).is_prefix_of a a = true)
    ∧ (∀ (A : Type) (P : Prefixable A),
        (∀ x, P.is_prefix_of x x = true) →
        ∀ a, (refPrefixable P).is_prefix_of a a = true) := by
  refine ⟨?_, ?_, ?_⟩
  · intro s
    exact startsWith_self _ s (fun x _ => by simp)
  · intro A beq a h
    exact startsWith_self beq a h
  · intro A P h a
    exact h a

/-- Witness for C10: reflexivity of the slice implementation at a concrete
key with reflexive element equality. -/
theorem provided_impls_reflexive_witness :
    (slicePrefixable (fun a b : Nat => a == b)).is_prefix_of [1, 2] [1, 2] = true :=
  provided_impls_reflexive.2.1 Nat (fun a b => a == b) [1, 2] (by simp)

end Indenty
